import Mathlib

/-!
# A verification model of the giotto-tda Mapper pipeline

The repository's source demonstrates the Mapper pipeline of `gtda.mapper`
(`make_mapper_pipeline`, `CubicalCover`, `fit_transform`, `set_params`,
and a custom row-wise filter `calculate_xy_ratio`) in
`examples/mapper_quickstart.ipynb`.  The library implementation itself is not
part of the source tree, so the pipeline stages below are modelled from the
specification: FilterStage, CoverBuilder, PartitionIndexer, ClusterStage,
GraphAssembler and the orchestrator `fitTransform`.

Point indices are natural numbers `0 .. N-1`; filter values are rationals;
a data row is a list of rationals.  The clustering procedure is a black-box
parameter, as in the source (any scikit-learn clusterer).
-/

namespace Mapper

/-- Modelled from the spec: the pipeline configuration produced by
`make_mapper_pipeline` (filter function, cover parameters of `CubicalCover`,
clustering procedure, degree of parallelism).  The clusterer maps a region's
preimage (a list of point indices) to a list of clusters (lists of point
indices). -/
structure MapperConfig where
  filter_func : List ℚ → ℚ
  n_intervals : ℕ
  overlap_frac : ℚ
  clusterer : List ℕ → List (List ℕ)
  n_jobs : ℕ

/-- Modelled from the spec: the error raised for malformed cover parameters
(`InvalidCoverConfigError`). -/
inductive MapperError where
  | invalidCoverConfig
  deriving DecidableEq, Repr

/-- Modelled from the spec: a cover configuration is valid when the requested
region count is at least 1 and the overlap fraction lies in `[0, 1)`. -/
def validCoverConfig (n : ℕ) (g : ℚ) : Bool :=
  decide (1 ≤ n ∧ 0 ≤ g ∧ g < 1)

/-- Modelled from the spec: CoverBuilder (`CubicalCover` in one filter
dimension).  Given the observed minimum and maximum filter value it produces
an ordered sequence of `n` closed intervals of equal length `L`, consecutive
intervals overlapping by the fraction `g` of `L`, whose union is exactly
`[minv, maxv]`.  In the degenerate case `minv = maxv` a single region
spanning that value is produced. -/
def coverIntervals (n : ℕ) (g minv maxv : ℚ) : List (ℚ × ℚ) :=
  if minv = maxv then [(minv, maxv)]
  else
    let L : ℚ := (maxv - minv) / ((n : ℚ) - ((n : ℚ) - 1) * g)
    (List.range n).map (fun i : ℕ =>
      (minv + (i : ℚ) * (L * (1 - g)), minv + (i : ℚ) * (L * (1 - g)) + L))

/-- Minimum of a list of filter values (0 for the empty list). -/
def minOf (l : List ℚ) : ℚ := l.foldl min (l.headD 0)

/-- Maximum of a list of filter values (0 for the empty list). -/
def maxOf (l : List ℚ) : ℚ := l.foldl max (l.headD 0)

/-- Modelled from the spec: PartitionIndexer for one region.  The preimage of
an interval is the list of point indices whose filter value lies within the
region's closed bounds, in increasing index order, without deduplication. -/
def preimageOf (itv : ℚ × ℚ) (fvals : List ℚ) : List ℕ :=
  (List.range fvals.length).filter
    (fun j => decide (itv.1 ≤ fvals.getD j 0 ∧ fvals.getD j 0 ≤ itv.2))

/-- Modelled from the spec: FilterStage applies the row-wise filter function
to every input row. -/
def filterValues (cfg : MapperConfig) (data : List (List ℚ)) : List ℚ :=
  data.map cfg.filter_func

/-- The cover built by the pipeline from the observed filter-value range. -/
def coverOf (cfg : MapperConfig) (data : List (List ℚ)) : List (ℚ × ℚ) :=
  coverIntervals cfg.n_intervals cfg.overlap_frac
    (minOf (filterValues cfg data)) (maxOf (filterValues cfg data))

/-- The list of region preimages, indexed by region label. -/
def preimagesOf (cfg : MapperConfig) (data : List (List ℚ)) : List (List ℕ) :=
  (coverOf cfg data).map (fun itv => preimageOf itv (filterValues cfg data))

/-- Modelled from the spec: tag the clusters returned by the clustering
procedure for region `r` with the region label and the local cluster index
(the position in the clusterer's output, starting at `k`); clusters with an
empty point set produce no node and are dropped. -/
def tagClusters (r : ℕ) : ℕ → List (List ℕ) → List (ℕ × ℕ × List ℕ)
  | _, [] => []
  | c, pts :: rest =>
      if pts = [] then tagClusters r (c + 1) rest
      else (r, c, pts) :: tagClusters r (c + 1) rest

/-- Modelled from the spec: ClusterStage for one region.  A region whose
preimage is empty is skipped; otherwise the clustering procedure runs on the
region's preimage and its clusters are tagged with the region label. -/
def regionWork (clusterer : List ℕ → List (List ℕ)) (pre : List (List ℕ))
    (r : ℕ) : List (ℕ × ℕ × List ℕ) :=
  if pre.getD r [] = [] then []
  else tagClusters r 0 (clusterer (pre.getD r []))

/-- Modelled from the spec: sequential ClusterStage over all regions in
ascending region-label order. -/
def clusterTriples (clusterer : List ℕ → List (List ℕ))
    (pre : List (List ℕ)) : List (ℕ × ℕ × List ℕ) :=
  ((List.range pre.length).map (regionWork clusterer pre)).flatten

/-- Modelled from the spec: parallel ClusterStage.  Workers may process the
regions in an arbitrary order `sched`; the per-region results are reassembled
by ascending region label before node ids are assigned. -/
def clusterTriplesSched (clusterer : List ℕ → List (List ℕ))
    (pre : List (List ℕ)) (sched : List ℕ) : List (ℕ × ℕ × List ℕ) :=
  ((List.insertionSort (· ≤ ·) sched).map (regionWork clusterer pre)).flatten

/-- A node of the Mapper graph: globally unique id, originating region label
(`pullback_set_label`), local cluster index within that region (called
`partial_cluster_label` in the source's metadata), and the owned point
indices (`node_elements`). -/
structure MapperNode where
  node_id : ℕ
  pullback_set_label : ℕ
  local_cluster_label : ℕ
  node_elements : List ℕ
  deriving DecidableEq, Repr

/-- Placeholder node used for out-of-range `getD` lookups. -/
def defaultNode : MapperNode := ⟨0, 0, 0, []⟩

/-- Modelled from the spec: GraphAssembler's node-id assignment.  Ids are
assigned consecutively starting from `k` in the order the triples appear
(region label ascending, then local cluster index ascending). -/
def assembleNodesFrom : ℕ → List (ℕ × ℕ × List ℕ) → List MapperNode
  | _, [] => []
  | k, t :: ts => ⟨k, t.1, t.2.1, t.2.2⟩ :: assembleNodesFrom (k + 1) ts

/-- Node list of the graph: ids start at 0. -/
def assembleNodes (triples : List (ℕ × ℕ × List ℕ)) : List MapperNode :=
  assembleNodesFrom 0 triples

/-- Whether two element lists share a point index. -/
def intersects (a b : List ℕ) : Bool :=
  a.any (fun x => b.contains x)

/-- Modelled from the spec: GraphAssembler's edge computation.  For every
unordered pair of nodes with intersecting point-index sets, one edge is
produced, represented by the ordered pair `(i, j)` with `i < j` of node ids. -/
def assembleEdges (elems : List (List ℕ)) : List (ℕ × ℕ) :=
  ((List.range elems.length).map (fun i =>
    (List.range elems.length).filterMap (fun j =>
      if i < j ∧ intersects (elems.getD i []) (elems.getD j []) then
        some (i, j)
      else none))).flatten

/-- The Mapper graph: node list (with metadata) and undirected edge list,
each unordered edge stored once as `(i, j)` with `i < j`. -/
structure MapperGraph where
  nodes : List MapperNode
  edges : List (ℕ × ℕ)
  deriving DecidableEq, Repr

/-- The `node_elements` of the node with id `i` ( `[]` when out of range). -/
def nodeElems (G : MapperGraph) (i : ℕ) : List ℕ :=
  (G.nodes.getD i defaultNode).node_elements

/-- Whether the graph has an undirected edge between node ids `i` and `j`. -/
def hasEdge (G : MapperGraph) (i j : ℕ) : Prop :=
  (i, j) ∈ G.edges ∨ (j, i) ∈ G.edges

/-- The (region label, cluster index, point set) triples produced by the
sequential pipeline on the given input. -/
def triplesOf (cfg : MapperConfig) (data : List (List ℚ)) :
    List (ℕ × ℕ × List ℕ) :=
  clusterTriples cfg.clusterer (preimagesOf cfg data)

/-- Modelled from the spec: the orchestrator's `fit_transform` entry point,
sequential execution.  It validates the cover configuration and then runs
FilterStage, CoverBuilder, PartitionIndexer, ClusterStage and GraphAssembler. -/
def fitTransform (cfg : MapperConfig) (data : List (List ℚ)) :
    Except MapperError MapperGraph :=
  if validCoverConfig cfg.n_intervals cfg.overlap_frac then
    .ok ⟨assembleNodes (triplesOf cfg data),
         assembleEdges ((triplesOf cfg data).map (fun t => t.2.2))⟩
  else
    .error .invalidCoverConfig

/-- Modelled from the spec: `fit_transform` with parallel dispatch of
ClusterStage; `sched` is the order in which the worker pool finishes the
regions. -/
def fitTransformSched (cfg : MapperConfig) (data : List (List ℚ))
    (sched : List ℕ) : Except MapperError MapperGraph :=
  if validCoverConfig cfg.n_intervals cfg.overlap_frac then
    let T := clusterTriplesSched cfg.clusterer (preimagesOf cfg data) sched
    .ok ⟨assembleNodes T, assembleEdges (T.map (fun t => t.2.2))⟩
  else
    .error .invalidCoverConfig

/-- Modelled from the notebook's usage of scikit-learn `set_params`: it
replaces the `filter_func` configuration field of the existing pipeline
(in Python this mutates the pipeline object in place; the mutation is
modelled by explicit state passing, the result being the post-call state of
the same pipeline). -/
def set_params (cfg : MapperConfig) (f : List ℚ → ℚ) : MapperConfig :=
  { cfg with filter_func := f }

/-- The custom row-wise filter of the notebook: `row[0] / row[1]`.  Division
is fallible; evaluating it on a row whose second coordinate is zero takes the
error branch (`none`). -/
def calculate_xy_ratio (row : List ℚ) : Option ℚ :=
  if row.getD 1 0 = 0 then none
  else some (row.getD 0 0 / row.getD 1 0)

/-- Modelled from the spec: a clustering procedure behaves as specified when,
on every input, it returns clusters that are subsets of the input point list
and pairwise disjoint. -/
def ValidClusterer (cl : List ℕ → List (List ℕ)) : Prop :=
  ∀ p : List ℕ,
    (∀ c ∈ cl p, ∀ x ∈ c, x ∈ p) ∧
    (cl p).Pairwise (fun a b => ∀ x ∈ a, x ∉ b)

/-! ## Helper lemmas about the stages -/

lemma foldl_min_le (l : List ℚ) (a : ℚ) :
    l.foldl min a ≤ a ∧ ∀ v ∈ l, l.foldl min a ≤ v := by
  induction l generalizing a with
  | nil => simp
  | cons h t ih =>
    simp only [List.foldl_cons, List.mem_cons]
    refine ⟨le_trans (ih (min a h)).1 (min_le_left _ _), ?_⟩
    rintro v (rfl | hv)
    · exact le_trans (ih (min a v)).1 (min_le_right _ _)
    · exact (ih (min a h)).2 v hv

lemma le_foldl_max (l : List ℚ) (a : ℚ) :
    a ≤ l.foldl max a ∧ ∀ v ∈ l, v ≤ l.foldl max a := by
  induction l generalizing a with
  | nil => simp
  | cons h t ih =>
    simp only [List.foldl_cons, List.mem_cons]
    refine ⟨le_trans (le_max_left _ _) (ih (max a h)).1, ?_⟩
    rintro v (rfl | hv)
    · exact le_trans (le_max_right _ _) (ih (max a v)).1
    · exact (ih (max a h)).2 v hv

lemma minOf_le {l : List ℚ} {v : ℚ} (hv : v ∈ l) : minOf l ≤ v :=
  (foldl_min_le l _).2 v hv

lemma le_maxOf {l : List ℚ} {v : ℚ} (hv : v ∈ l) : v ≤ maxOf l :=
  (le_foldl_max l _).2 v hv

lemma mem_preimageOf {itv : ℚ × ℚ} {fvals : List ℚ} {j : ℕ} :
    j ∈ preimageOf itv fvals ↔
      j < fvals.length ∧ itv.1 ≤ fvals.getD j 0 ∧ fvals.getD j 0 ≤ itv.2 := by
  simp [preimageOf, List.mem_filter, List.mem_range, and_assoc]

lemma denom_pos {n : ℕ} (hn : 1 ≤ n) {g : ℚ} (_hg0 : 0 ≤ g) (hg1 : g < 1) :
    0 < (n : ℚ) - ((n : ℚ) - 1) * g := by
  have h1 : (1 : ℚ) ≤ (n : ℚ) := by exact_mod_cast hn
  nlinarith

lemma coverIntervals_length {n : ℕ} {g minv maxv : ℚ} (h : minv ≠ maxv) :
    (coverIntervals n g minv maxv).length = n := by
  unfold coverIntervals
  rw [if_neg h]
  simp only [List.length_map, List.length_range]

lemma coverIntervals_getD {n : ℕ} {g minv maxv : ℚ} (h : minv ≠ maxv)
    {k : ℕ} (hk : k < n) :
    (coverIntervals n g minv maxv).getD k (0, 0) =
      (minv + (k : ℚ) * ((maxv - minv) / ((n : ℚ) - ((n : ℚ) - 1) * g) * (1 - g)),
       minv + (k : ℚ) * ((maxv - minv) / ((n : ℚ) - ((n : ℚ) - 1) * g) * (1 - g))
         + (maxv - minv) / ((n : ℚ) - ((n : ℚ) - 1) * g)) := by
  have hk' : k < (coverIntervals n g minv maxv).length := by
    rw [coverIntervals_length h]; exact hk
  rw [List.getD_eq_getElem _ _ hk']
  unfold coverIntervals
  simp only [h, if_false, reduceIte]
  rw [List.getElem_map]
  simp only [List.getElem_range]

lemma interval_chain_cover (minv L S x : ℚ) (_hS0 : 0 ≤ S) (hSL : S ≤ L) :
    ∀ m : ℕ, minv ≤ x → x ≤ minv + (m : ℚ) * S + L →
      ∃ k : ℕ, k ≤ m ∧ minv + (k : ℚ) * S ≤ x ∧ x ≤ minv + (k : ℚ) * S + L := by
  intro m
  induction m with
  | zero =>
    intro h1 h2
    exact ⟨0, le_refl 0, by simpa using h1, by simpa using h2⟩
  | succ m ih =>
    intro h1 h2
    by_cases hx : x ≤ minv + (m : ℚ) * S + L
    · obtain ⟨k, hk, ha, hb⟩ := ih h1 hx
      exact ⟨k, Nat.le_succ_of_le hk, ha, hb⟩
    · push_neg at hx
      refine ⟨m + 1, le_refl _, ?_, ?_⟩
      · push_cast
        nlinarith
      · push_cast at h2 ⊢
        linarith

lemma mem_tagClusters {r : ℕ} {cl : List (List ℕ)} {t : ℕ × ℕ × List ℕ} :
    ∀ {k : ℕ}, t ∈ tagClusters r k cl ↔
      ∃ j, j < cl.length ∧ cl.getD j [] ≠ [] ∧ t = (r, k + j, cl.getD j []) := by
  induction cl with
  | nil => intro k; simp [tagClusters]
  | cons c rest ih =>
    intro k
    by_cases hc : c = []
    · rw [tagClusters, if_pos hc, ih]
      constructor
      · rintro ⟨j, hj, hne, rfl⟩
        refine ⟨j + 1, by simpa using hj, by simpa using hne, ?_⟩
        rw [List.getD_cons_succ]
        have hidx : k + (j + 1) = k + 1 + j := by omega
        rw [hidx]
      · rintro ⟨j, hj, hne, ht⟩
        match j with
        | 0 => rw [List.getD_cons_zero] at hne; exact absurd hc hne
        | j + 1 =>
          refine ⟨j, by simpa using hj, by simpa using hne, ?_⟩
          rw [List.getD_cons_succ] at ht
          have hidx : k + 1 + j = k + (j + 1) := by omega
          rw [hidx]
          exact ht
    · rw [tagClusters, if_neg hc, List.mem_cons, ih]
      constructor
      · rintro (rfl | ⟨j, hj, hne, rfl⟩)
        · exact ⟨0, by simp, by simpa using hc, by simp⟩
        · refine ⟨j + 1, by simpa using hj, by simpa using hne, ?_⟩
          rw [List.getD_cons_succ]
          have hidx : k + (j + 1) = k + 1 + j := by omega
          rw [hidx]
      · rintro ⟨j, hj, hne, ht⟩
        match j with
        | 0 =>
          left
          rw [List.getD_cons_zero] at ht
          simpa using ht
        | j + 1 =>
          right
          refine ⟨j, by simpa using hj, by simpa using hne, ?_⟩
          rw [List.getD_cons_succ] at ht
          have hidx : k + 1 + j = k + (j + 1) := by omega
          rw [hidx]
          exact ht

lemma tagClusters_pairwise (r : ℕ) (cl : List (List ℕ)) :
    ∀ k : ℕ, (tagClusters r k cl).Pairwise (fun a b => a.2.1 < b.2.1) := by
  induction cl with
  | nil => intro k; simp [tagClusters]
  | cons c rest ih =>
    intro k
    rw [tagClusters]
    split
    · exact ih (k + 1)
    · refine List.Pairwise.cons ?_ (ih (k + 1))
      intro b hb
      obtain ⟨j, _, _, rfl⟩ := mem_tagClusters.mp hb
      simp only []
      omega

lemma tagClusters_length (r : ℕ) (cl : List (List ℕ)) :
    ∀ k : ℕ, (tagClusters r k cl).length = cl.countP (fun c => !c.isEmpty) := by
  induction cl with
  | nil => intro k; simp [tagClusters]
  | cons c rest ih =>
    intro k
    rw [tagClusters, List.countP_cons]
    by_cases hc : c = []
    · rw [if_pos hc]
      simp [hc, ih (k + 1)]
    · rw [if_neg hc]
      have : c.isEmpty = false := by
        cases c with
        | nil => exact absurd rfl hc
        | cons a t => rfl
      simp [this, ih (k + 1)]

lemma mem_regionWork {clusterer : List ℕ → List (List ℕ)}
    {pre : List (List ℕ)} {r : ℕ} {t : ℕ × ℕ × List ℕ} :
    t ∈ regionWork clusterer pre r ↔
      pre.getD r [] ≠ [] ∧
      ∃ j, j < (clusterer (pre.getD r [])).length ∧
        (clusterer (pre.getD r [])).getD j [] ≠ [] ∧
        t = (r, j, (clusterer (pre.getD r [])).getD j []) := by
  unfold regionWork
  split
  · rename_i hp
    constructor
    · intro h
      exact absurd h (List.not_mem_nil t)
    · rintro ⟨hne, -⟩
      exact absurd hp hne
  · rename_i hp
    rw [mem_tagClusters]
    simp only [Nat.zero_add]
    exact ⟨fun h => ⟨hp, h⟩, fun h => h.2⟩

lemma regionWork_label {clusterer : List ℕ → List (List ℕ)}
    {pre : List (List ℕ)} {r : ℕ} {t : ℕ × ℕ × List ℕ}
    (ht : t ∈ regionWork clusterer pre r) : t.1 = r := by
  obtain ⟨-, j, -, -, rfl⟩ := mem_regionWork.mp ht
  rfl

lemma mem_clusterTriples {clusterer : List ℕ → List (List ℕ)}
    {pre : List (List ℕ)} {t : ℕ × ℕ × List ℕ} :
    t ∈ clusterTriples clusterer pre ↔
      ∃ r, r < pre.length ∧ t ∈ regionWork clusterer pre r := by
  unfold clusterTriples
  rw [List.mem_flatten]
  constructor
  · rintro ⟨l, hl, htl⟩
    obtain ⟨r, hr, rfl⟩ := List.mem_map.mp hl
    exact ⟨r, List.mem_range.mp hr, htl⟩
  · rintro ⟨r, hr, htr⟩
    exact ⟨regionWork clusterer pre r,
      List.mem_map.mpr ⟨r, List.mem_range.mpr hr, rfl⟩, htr⟩

/-- Strict lexicographic order on (region label, cluster index) used to state
the deterministic node ordering. -/
def lexLt (a b : ℕ × ℕ × List ℕ) : Prop :=
  a.1 < b.1 ∨ (a.1 = b.1 ∧ a.2.1 < b.2.1)

lemma clusterTriples_pairwise (clusterer : List ℕ → List (List ℕ))
    (pre : List (List ℕ)) :
    (clusterTriples clusterer pre).Pairwise lexLt := by
  unfold clusterTriples
  rw [List.pairwise_flatten]
  constructor
  · intro l hl
    obtain ⟨r, _, rfl⟩ := List.mem_map.mp hl
    unfold regionWork
    split
    · exact List.Pairwise.nil
    · refine List.Pairwise.imp_of_mem ?_ (tagClusters_pairwise r _ 0)
      intro a b ha hb hab
      right
      obtain ⟨ja, -, -, rfl⟩ := mem_tagClusters.mp ha
      obtain ⟨jb, -, -, rfl⟩ := mem_tagClusters.mp hb
      exact ⟨rfl, hab⟩
  · rw [List.pairwise_map]
    refine (List.pairwise_lt_range pre.length).imp_of_mem ?_
    intro r r' _ _ hrr' a ha b hb
    left
    rw [regionWork_label ha, regionWork_label hb]
    exact hrr'

lemma clusterTriples_length (clusterer : List ℕ → List (List ℕ))
    (pre : List (List ℕ)) :
    (clusterTriples clusterer pre).length =
      ((List.range pre.length).map (fun r =>
        if pre.getD r [] = [] then 0
        else (clusterer (pre.getD r [])).countP (fun c => !c.isEmpty))).sum := by
  unfold clusterTriples
  rw [List.length_flatten, List.map_map]
  congr 1
  refine List.map_congr_left ?_
  intro r _
  simp only [Function.comp_apply]
  unfold regionWork
  split
  · simp
  · exact tagClusters_length r _ 0

lemma assembleNodesFrom_length (ts : List (ℕ × ℕ × List ℕ)) :
    ∀ k : ℕ, (assembleNodesFrom k ts).length = ts.length := by
  induction ts with
  | nil => intro k; rfl
  | cons t ts ih =>
    intro k
    simp [assembleNodesFrom, ih (k + 1)]

lemma assembleNodesFrom_getD (ts : List (ℕ × ℕ × List ℕ)) :
    ∀ (k i : ℕ), i < ts.length →
      (assembleNodesFrom k ts).getD i defaultNode =
        ⟨k + i, (ts.getD i (0, 0, [])).1, (ts.getD i (0, 0, [])).2.1,
          (ts.getD i (0, 0, [])).2.2⟩ := by
  induction ts with
  | nil =>
    intro k i hi
    exact absurd hi (by simp)
  | cons t ts ih =>
    intro k i hi
    match i with
    | 0 => simp [assembleNodesFrom]
    | i + 1 =>
      rw [assembleNodesFrom, List.getD_cons_succ, List.getD_cons_succ,
        ih (k + 1) i (by simpa using hi)]
      have hidx : k + 1 + i = k + (i + 1) := by omega
      rw [hidx]

lemma mem_assembleNodesFrom {ts : List (ℕ × ℕ × List ℕ)} {nd : MapperNode} :
    ∀ {k : ℕ}, nd ∈ assembleNodesFrom k ts ↔
      ∃ i, i < ts.length ∧
        nd = ⟨k + i, (ts.getD i (0, 0, [])).1, (ts.getD i (0, 0, [])).2.1,
          (ts.getD i (0, 0, [])).2.2⟩ := by
  induction ts with
  | nil => intro k; simp [assembleNodesFrom]
  | cons t ts ih =>
    intro k
    rw [assembleNodesFrom, List.mem_cons, ih]
    constructor
    · rintro (rfl | ⟨i, hi, rfl⟩)
      · exact ⟨0, by simp, by simp⟩
      · refine ⟨i + 1, by simpa using hi, ?_⟩
        rw [List.getD_cons_succ]
        have hidx : k + (i + 1) = k + 1 + i := by omega
        rw [hidx]
    · rintro ⟨i, hi, ht⟩
      match i with
      | 0 =>
        left
        rw [List.getD_cons_zero] at ht
        simpa using ht
      | i + 1 =>
        right
        refine ⟨i, by simpa using hi, ?_⟩
        rw [List.getD_cons_succ] at ht
        have hidx : k + 1 + i = k + (i + 1) := by omega
        rw [hidx]
        exact ht

lemma intersects_iff {a b : List ℕ} :
    intersects a b = true ↔ ∃ x, x ∈ a ∧ x ∈ b := by
  unfold intersects
  rw [List.any_eq_true]
  constructor
  · rintro ⟨x, hx, h2⟩
    exact ⟨x, hx, by simpa using h2⟩
  · rintro ⟨x, hx, h2⟩
    exact ⟨x, hx, by simpa using h2⟩

lemma intersects_comm (a b : List ℕ) : intersects a b = intersects b a := by
  rw [Bool.eq_iff_iff, intersects_iff, intersects_iff]
  constructor <;> rintro ⟨x, h1, h2⟩ <;> exact ⟨x, h2, h1⟩

lemma edgeCell_eq {elems : List (List ℕ)} {i j : ℕ} {p : ℕ × ℕ}
    (h : (if i < j ∧ intersects (elems.getD i []) (elems.getD j []) then
            some (i, j) else none) = some p) :
    p = (i, j) ∧ i < j ∧ intersects (elems.getD i []) (elems.getD j []) = true := by
  by_cases hc : i < j ∧ intersects (elems.getD i []) (elems.getD j [])
  · rw [if_pos hc] at h
    exact ⟨(Option.some.inj h).symm, hc.1, hc.2⟩
  · rw [if_neg hc] at h
    cases h

lemma mem_assembleEdges {elems : List (List ℕ)} {i j : ℕ} :
    (i, j) ∈ assembleEdges elems ↔
      i < elems.length ∧ j < elems.length ∧ i < j ∧
        intersects (elems.getD i []) (elems.getD j []) = true := by
  unfold assembleEdges
  rw [List.mem_flatten]
  constructor
  · rintro ⟨l, hl, hml⟩
    obtain ⟨i', hi', rfl⟩ := List.mem_map.mp hl
    obtain ⟨j', hj', hsome⟩ := List.mem_filterMap.mp hml
    rw [List.mem_range] at hi' hj'
    obtain ⟨hp, hij, hint⟩ := edgeCell_eq hsome
    obtain ⟨rfl, rfl⟩ : i' = i ∧ j' = j := by
      have := hp.symm
      simp only [Prod.mk.injEq] at this
      exact this
    exact ⟨hi', hj', hij, hint⟩
  · rintro ⟨hi, hj, hij, hint⟩
    refine ⟨_, List.mem_map.mpr ⟨i, List.mem_range.mpr hi, rfl⟩, ?_⟩
    refine List.mem_filterMap.mpr ⟨j, List.mem_range.mpr hj, ?_⟩
    rw [if_pos ⟨hij, hint⟩]

lemma assembleEdges_nodup (elems : List (List ℕ)) :
    (assembleEdges elems).Nodup := by
  unfold assembleEdges
  rw [List.nodup_flatten]
  constructor
  · intro l hl
    obtain ⟨i, -, rfl⟩ := List.mem_map.mp hl
    refine List.Nodup.filterMap ?_ (List.nodup_range _)
    intro j j' p hj hj'
    obtain ⟨hp, -, -⟩ := edgeCell_eq hj
    obtain ⟨hp', -, -⟩ := edgeCell_eq hj'
    rw [hp] at hp'
    exact ((Prod.mk.injEq _ _ _ _).mp hp').2
  · rw [List.pairwise_map]
    refine (List.pairwise_lt_range elems.length).imp_of_mem ?_
    intro i i' _ _ hii' p hp hp'
    obtain ⟨j, -, hsome⟩ := List.mem_filterMap.mp hp
    obtain ⟨j', -, hsome'⟩ := List.mem_filterMap.mp hp'
    obtain ⟨hp1, -, -⟩ := edgeCell_eq hsome
    obtain ⟨hp2, -, -⟩ := edgeCell_eq hsome'
    rw [hp1] at hp2
    have : i = i' := ((Prod.mk.injEq _ _ _ _).mp hp2).1
    omega

lemma assembleEdges_fst_lt {elems : List (List ℕ)} {i j : ℕ}
    (h : (i, j) ∈ assembleEdges elems) : i < j :=
  (mem_assembleEdges.mp h).2.2.1

lemma fitTransform_ok {cfg : MapperConfig} {data : List (List ℚ)}
    {G : MapperGraph} (h : fitTransform cfg data = .ok G) :
    G.nodes = assembleNodes (triplesOf cfg data) ∧
    G.edges = assembleEdges ((triplesOf cfg data).map (fun t => t.2.2)) := by
  unfold fitTransform at h
  split at h
  · cases h
    exact ⟨rfl, rfl⟩
  · cases h

lemma assembleNodes_elems (ts : List (ℕ × ℕ × List ℕ)) (i : ℕ) :
    ((assembleNodes ts).getD i defaultNode).node_elements =
      (ts.map (fun t => t.2.2)).getD i [] := by
  by_cases hi : i < ts.length
  · rw [assembleNodes, assembleNodesFrom_getD ts 0 i hi]
    have hi2 : i < (ts.map (fun t => t.2.2)).length := by
      rw [List.length_map]
      exact hi
    rw [List.getD_eq_getElem _ _ hi2, List.getElem_map,
      List.getD_eq_getElem _ _ hi]
  · push_neg at hi
    rw [List.getD_eq_default _ _ (by rw [assembleNodes, assembleNodesFrom_length]; exact hi),
      List.getD_eq_default _ _ (by rw [List.length_map]; exact hi)]
    rfl

lemma assembleNodesFrom_keys (ts : List (ℕ × ℕ × List ℕ)) :
    ∀ k : ℕ, (assembleNodesFrom k ts).map
        (fun nd => (nd.pullback_set_label, nd.local_cluster_label)) =
      ts.map (fun t => (t.1, t.2.1)) := by
  induction ts with
  | nil => intro k; rfl
  | cons t ts ih =>
    intro k
    simp only [assembleNodesFrom, List.map_cons, ih (k + 1)]

lemma sort_perm_range {n : ℕ} {sched : List ℕ}
    (hs : sched.Perm (List.range n)) :
    List.insertionSort (· ≤ ·) sched = List.range n :=
  List.eq_of_perm_of_sorted ((List.perm_insertionSort _ _).trans hs)
    (List.sorted_insertionSort _ _)
    ((List.pairwise_lt_range n).imp (fun h => le_of_lt h))

lemma preimagesOf_getD {cfg : MapperConfig} {data : List (List ℚ)} {r : ℕ}
    (hr : r < (coverOf cfg data).length) :
    (preimagesOf cfg data).getD r [] =
      preimageOf ((coverOf cfg data).getD r (0, 0)) (filterValues cfg data) := by
  unfold preimagesOf
  rw [List.getD_eq_getElem _ _ (by simpa using hr), List.getElem_map,
    List.getD_eq_getElem _ _ hr]

lemma mem_preimagesOf_lt {cfg : MapperConfig} {data : List (List ℚ)}
    {r x : ℕ} (hx : x ∈ (preimagesOf cfg data).getD r []) : x < data.length := by
  by_cases hr : r < (preimagesOf cfg data).length
  · rw [List.getD_eq_getElem _ _ hr] at hx
    unfold preimagesOf at hx
    rw [List.getElem_map] at hx
    have h1 := (mem_preimageOf.mp hx).1
    rwa [filterValues, List.length_map] at h1
  · push_neg at hr
    rw [List.getD_eq_default _ _ hr] at hx
    exact absurd hx (List.not_mem_nil x)

lemma minOf_le_maxOf {l : List ℚ} (h : l ≠ []) : minOf l ≤ maxOf l := by
  match l with
  | a :: t =>
    have h1 : minOf (a :: t) ≤ a := minOf_le (by simp)
    have h2 : a ≤ maxOf (a :: t) := le_maxOf (by simp)
    linarith

/-- The number of non-empty clusters produced across all regions: regions
with an empty preimage are skipped, and for each remaining region the
clusters with a non-empty point set are counted. -/
def nonemptyClusterCount (clusterer : List ℕ → List (List ℕ))
    (pre : List (List ℕ)) : ℕ :=
  ((List.range pre.length).map (fun r =>
    if pre.getD r [] = [] then 0
    else (clusterer (pre.getD r [])).countP (fun c => !c.isEmpty))).sum

/-! ## A concrete pipeline instance used as evaluation witness -/

/-- A concrete clustering procedure that groups each region's whole preimage
into a single cluster (the behaviour of a very coarse clusterer). -/
def cl0 : List ℕ → List (List ℕ) := fun p => [p]

/-- A concrete pipeline configuration: the filter is projection onto the
first coordinate, two cover intervals with 50% overlap, the single-cluster
clusterer, sequential execution. -/
def cfg0 : MapperConfig := ⟨fun row => row.headD 0, 2, 1 / 2, cl0, 1⟩

/-- A concrete four-point one-dimensional point cloud. -/
def data0 : List (List ℚ) := [[0], [1], [2], [3]]

/-- The Mapper graph produced by the pipeline on `cfg0` and `data0`:
cover intervals `[0, 2]` and `[1, 3]`, preimages `[0, 1, 2]` and
`[1, 2, 3]`, one cluster per region, one edge through the shared points. -/
def graph0 : MapperGraph :=
  ⟨[⟨0, 0, 0, [0, 1, 2]⟩, ⟨1, 1, 0, [1, 2, 3]⟩], [(0, 1)]⟩

lemma cl0_valid : ValidClusterer cl0 := by
  intro p
  constructor
  · intro c hc x hx
    rw [cl0] at hc
    rw [List.mem_singleton] at hc
    rwa [hc] at hx
  · rw [cl0]
    exact List.pairwise_singleton _ _

lemma fvals0 : filterValues cfg0 data0 = [0, 1, 2, 3] := by rfl

lemma min0 : minOf (filterValues cfg0 data0) = 0 := by
  rw [fvals0]
  norm_num [minOf, List.foldl, min_def]

lemma max0 : maxOf (filterValues cfg0 data0) = 3 := by
  rw [fvals0]
  norm_num [maxOf, List.foldl, max_def]

lemma cover0 : coverOf cfg0 data0 = [(0, 2), (1, 3)] := by
  rw [coverOf, min0, max0]
  norm_num [coverIntervals, cfg0, List.range_succ]

lemma pre0 : preimagesOf cfg0 data0 = [[0, 1, 2], [1, 2, 3]] := by
  rw [preimagesOf, cover0, fvals0]
  norm_num [preimageOf, List.filter_cons, List.range_succ]

lemma triples0 : triplesOf cfg0 data0 = [(0, 0, [0, 1, 2]), (1, 0, [1, 2, 3])] := by
  unfold triplesOf
  rw [pre0]
  decide

lemma fit0 : fitTransform cfg0 data0 = .ok graph0 := by
  have hv : validCoverConfig cfg0.n_intervals cfg0.overlap_frac = true := by
    rw [validCoverConfig, decide_eq_true_iff]
    refine ⟨by norm_num [cfg0], by norm_num [cfg0], by norm_num [cfg0]⟩
  unfold fitTransform
  rw [if_pos hv, triples0]
  have hG : (⟨assembleNodes [(0, 0, [0, 1, 2]), (1, 0, [1, 2, 3])],
      assembleEdges ([(0, 0, [0, 1, 2]), (1, 0, [1, 2, 3])].map (fun t => t.2.2))⟩ :
      MapperGraph) = graph0 := by decide
  rw [hG]

/-! ## Claim theorems -/

/-- C7: cover construction (and hence `fit_transform`) fails with
`InvalidCoverConfigError` exactly when the requested region count is `< 1` or
the overlap fraction is not in `[0, 1)`; for every configuration with region
count `≥ 1` and overlap fraction in `[0, 1)` it succeeds. -/
theorem c7_cover_config_validation (cfg : MapperConfig) (data : List (List ℚ)) :
    (fitTransform cfg data = .error .invalidCoverConfig ↔
      (cfg.n_intervals < 1 ∨ cfg.overlap_frac < 0 ∨ 1 ≤ cfg.overlap_frac)) ∧
    ((1 ≤ cfg.n_intervals ∧ 0 ≤ cfg.overlap_frac ∧ cfg.overlap_frac < 1) →
      ∃ G, fitTransform cfg data = .ok G) := by
  have hchar : validCoverConfig cfg.n_intervals cfg.overlap_frac = true ↔
      (1 ≤ cfg.n_intervals ∧ 0 ≤ cfg.overlap_frac ∧ cfg.overlap_frac < 1) := by
    rw [validCoverConfig, decide_eq_true_iff]
  by_cases hv : validCoverConfig cfg.n_intervals cfg.overlap_frac = true
  · have hcond := hchar.mp hv
    unfold fitTransform
    rw [if_pos hv]
    refine ⟨⟨fun h => absurd h (by simp), ?_⟩, fun _ => ⟨_, rfl⟩⟩
    rintro (h | h | h)
    · exact absurd hcond.1 (by omega)
    · exact absurd hcond.2.1 (by linarith)
    · exact absurd hcond.2.2 (by linarith)
  · unfold fitTransform
    rw [if_neg hv]
    constructor
    · refine ⟨fun _ => ?_, fun _ => rfl⟩
      rw [hchar] at hv
      by_cases h1 : 1 ≤ cfg.n_intervals
      · by_cases h2 : 0 ≤ cfg.overlap_frac
        · by_cases h3 : cfg.overlap_frac < 1
          · exact absurd ⟨h1, h2, h3⟩ hv
          · exact Or.inr (Or.inr (not_lt.mp h3))
        · exact Or.inr (Or.inl (not_le.mp h2))
      · exact Or.inl (by omega)
    · intro hcond
      exact absurd (hchar.mpr hcond) hv

/-- C7 witness: the concrete configuration (2 regions, overlap fraction 1/2)
is valid, so `fit_transform` succeeds on it. -/
theorem c7_witness : ∃ G, fitTransform cfg0 data0 = .ok G :=
  (c7_cover_config_validation cfg0 data0).2
    ⟨by decide, by norm_num [cfg0], by norm_num [cfg0]⟩

/-- C8 counterexample: the claim that no operation mutates configuration
fields once the pipeline is constructed is false: the notebook reconfigures
the existing pipeline via `set_params`, after which the pipeline's filter
function differs from the one it was constructed with.  Concretely, a
pipeline constructed with the constant-0 filter has the constant-1 filter
after `set_params`. -/
theorem c8_set_params_mutates :
    ( Mapper.set_params ⟨fun _ => 0, 10, 3 / 10, cl0, 1⟩ (fun _ => 1)).filter_func []
      ≠ (MapperConfig.mk (fun _ => 0) 10 (3 / 10) cl0 1).filter_func [] := by
  unfold set_params
  norm_num

/-- C8 (amended): the pipeline configuration is not immutable after
construction: `set_params` reconfigures the pipeline in place, replacing
exactly the supplied configuration field (here the filter function) and
leaving every other configuration field unchanged. -/
theorem c8_set_params_replaces_filter_only (cfg : MapperConfig)
    (f : List ℚ → ℚ) :
    ( Mapper.set_params cfg f).filter_func = f ∧
    ( Mapper.set_params cfg f).n_intervals = cfg.n_intervals ∧
    ( Mapper.set_params cfg f).overlap_frac = cfg.overlap_frac ∧
    ( Mapper.set_params cfg f).clusterer = cfg.clusterer ∧
    ( Mapper.set_params cfg f).n_jobs = cfg.n_jobs :=
  ⟨rfl, rfl, rfl, rfl, rfl⟩

/-- C10: the demonstrated row-wise filter maps a row to
`row[0] / row[1]`; whenever the second coordinate is non-zero the division's
error branch is unreachable and the quotient is returned, and there is an
input (a row whose second coordinate is zero) on which filter evaluation
fails. -/
theorem c10_xy_filter (row : List ℚ) :
    (row.getD 1 0 ≠ 0 →
      calculate_xy_ratio row = some (row.getD 0 0 / row.getD 1 0)) ∧
    calculate_xy_ratio [1, 0] = none := by
  constructor
  · intro h
    unfold calculate_xy_ratio
    rw [if_neg h]
  · rfl

/-- C10 witness: on the row `[3, 2]` the second coordinate is non-zero and
the filter evaluates to `3 / 2`. -/
theorem c10_xy_filter_witness :
    ([3, 2] : List ℚ).getD 1 0 ≠ 0 ∧
      calculate_xy_ratio [3, 2] =
        some (([3, 2] : List ℚ).getD 0 0 / ([3, 2] : List ℚ).getD 1 0) :=
  ⟨by norm_num, (c10_xy_filter [3, 2]).1 (by norm_num)⟩

/-- C1: in the graph produced by `fit_transform` there is an undirected edge
between two nodes exactly when the nodes are distinct and their
node-element sets intersect; the edge list has no duplicates and each
unordered edge is stored exactly once, as `(i, j)` with `i < j`, so the graph
has no self-edges and no duplicate edges. -/
theorem c1_edges_iff_shared_points (cfg : MapperConfig) (data : List (List ℚ))
    (G : MapperGraph) (h : fitTransform cfg data = .ok G) :
    (∀ i j : ℕ, hasEdge G i j ↔
      (i ≠ j ∧ i < G.nodes.length ∧ j < G.nodes.length ∧
        intersects (nodeElems G i) (nodeElems G j) = true)) ∧
    G.edges.Nodup ∧
    (∀ i j : ℕ, (i, j) ∈ G.edges → i < j) := by
  obtain ⟨hn, he⟩ := fitTransform_ok h
  have hlen : G.nodes.length = (triplesOf cfg data).length := by
    rw [hn, assembleNodes, assembleNodesFrom_length]
  have hmlen : ((triplesOf cfg data).map (fun t => t.2.2)).length =
      G.nodes.length := by
    rw [List.length_map, hlen]
  have helems : ∀ i, nodeElems G i =
      ((triplesOf cfg data).map (fun t => t.2.2)).getD i [] := by
    intro i
    rw [nodeElems, hn]
    exact assembleNodes_elems _ i
  refine ⟨?_, by rw [he]; exact assembleEdges_nodup _, ?_⟩
  · intro i j
    unfold hasEdge
    rw [he, mem_assembleEdges, mem_assembleEdges, hmlen,
      ← helems i, ← helems j]
    constructor
    · rintro (⟨hi, hj, hij, hint⟩ | ⟨hj, hi, hji, hint⟩)
      · exact ⟨by omega, hi, hj, hint⟩
      · exact ⟨by omega, hi, hj, by rw [intersects_comm]; exact hint⟩
    · rintro ⟨hne, hi, hj, hint⟩
      by_cases hij : i < j
      · exact Or.inl ⟨hi, hj, hij, hint⟩
      · exact Or.inr ⟨hj, hi, by omega, by rw [intersects_comm]; exact hint⟩
  · intro i j hij
    rw [he] at hij
    exact assembleEdges_fst_lt hij

/-- C1 witness: on the concrete pipeline, the two produced nodes share the
points `{1, 2}` and are joined by the single edge, and the edge list has no
duplicates. -/
theorem c1_witness : hasEdge graph0 0 1 ∧ graph0.edges.Nodup := by
  have hmain := c1_edges_iff_shared_points cfg0 data0 graph0 fit0
  exact ⟨(hmain.1 0 1).mpr ⟨by decide, by decide, by decide, by decide⟩,
    hmain.2.1⟩

/-- C5: node ids are assigned in the deterministic order region label
ascending, then local cluster index ascending: the node stored at position
`i` has node id `i`, the node list is strictly sorted by
(region label, cluster index), and the produced graph is uniquely determined
by the input and configuration. -/
theorem c5_node_id_order (cfg : MapperConfig) (data : List (List ℚ))
    (G : MapperGraph) (h : fitTransform cfg data = .ok G) :
    (∀ i, i < G.nodes.length → (G.nodes.getD i defaultNode).node_id = i) ∧
    G.nodes.Pairwise (fun a b =>
      a.pullback_set_label < b.pullback_set_label ∨
        (a.pullback_set_label = b.pullback_set_label ∧
          a.local_cluster_label < b.local_cluster_label)) ∧
    (∀ G', fitTransform cfg data = .ok G' → G' = G) := by
  obtain ⟨hn, -⟩ := fitTransform_ok h
  refine ⟨?_, ?_, ?_⟩
  · intro i hi
    rw [hn] at hi ⊢
    rw [assembleNodes] at hi ⊢
    rw [assembleNodesFrom_length] at hi
    rw [assembleNodesFrom_getD _ 0 i hi]
    simp
  · rw [hn]
    have hkeys : (assembleNodes (triplesOf cfg data)).map
        (fun nd => (nd.pullback_set_label, nd.local_cluster_label)) =
        (triplesOf cfg data).map (fun t => (t.1, t.2.1)) :=
      assembleNodesFrom_keys _ 0
    have hts : ((triplesOf cfg data).map (fun t => (t.1, t.2.1))).Pairwise
        (fun p q : ℕ × ℕ => p.1 < q.1 ∨ (p.1 = q.1 ∧ p.2 < q.2)) := by
      rw [List.pairwise_map]
      refine (clusterTriples_pairwise _ _).imp ?_
      intro a b hab
      exact hab
    rw [← hkeys, List.pairwise_map] at hts
    exact hts
  · intro G' h'
    rw [h'] at h
    injection h

/-- C5 witness: on the concrete pipeline the node at position 0 has id 0 and
the node at position 1 has id 1. -/
theorem c5_witness :
    (graph0.nodes.getD 0 defaultNode).node_id = 0 ∧
    (graph0.nodes.getD 1 defaultNode).node_id = 1 := by
  have hmain := c5_node_id_order cfg0 data0 graph0 fit0
  exact ⟨hmain.1 0 (by decide), hmain.1 1 (by decide)⟩

lemma fitTransformSched_eq (cfg : MapperConfig) (data : List (List ℚ))
    (sched : List ℕ)
    (hs : sched.Perm (List.range (preimagesOf cfg data).length)) :
    fitTransformSched cfg data sched = fitTransform cfg data := by
  have htrip : clusterTriplesSched cfg.clusterer (preimagesOf cfg data) sched =
      triplesOf cfg data := by
    unfold clusterTriplesSched triplesOf clusterTriples
    rw [sort_perm_range hs]
  unfold fitTransformSched fitTransform
  rw [htrip]

/-- C4: running the pipeline with parallel dispatch of ClusterStage
(`n_jobs = 4`), with the workers finishing the regions in any order, yields
exactly the same graph — node ids, node elements and edges — as the
sequential deterministically-ordered run with `n_jobs = 1`: results are
reassembled by region label before node-id assignment. -/
theorem c4_parallel_equals_sequential (cfg : MapperConfig)
    (data : List (List ℚ)) (sched : List ℕ)
    (hs : sched.Perm (List.range (preimagesOf cfg data).length)) :
    fitTransformSched { cfg with n_jobs := 4 } data sched =
      fitTransform { cfg with n_jobs := 1 } data := by
  have h4 : fitTransformSched { cfg with n_jobs := 4 } data sched =
      fitTransform { cfg with n_jobs := 4 } data :=
    fitTransformSched_eq { cfg with n_jobs := 4 } data sched hs
  rw [h4]
  rfl

/-- C4 witness: on the concrete pipeline with its two regions processed in
reversed order by the parallel dispatch, the produced graph equals the
sequential one. -/
theorem c4_witness :
    fitTransformSched { cfg0 with n_jobs := 4 } data0 [1, 0] =
      fitTransform { cfg0 with n_jobs := 1 } data0 := by
  refine c4_parallel_equals_sequential cfg0 data0 [1, 0] ?_
  rw [pre0]
  decide

lemma triple_subset_preimage {clusterer : List ℕ → List (List ℕ)}
    {pre : List (List ℕ)} (hv : ValidClusterer clusterer)
    {t : ℕ × ℕ × List ℕ} (ht : t ∈ clusterTriples clusterer pre) :
    ∀ x ∈ t.2.2, x ∈ pre.getD t.1 [] := by
  obtain ⟨r, hr, htr⟩ := mem_clusterTriples.mp ht
  obtain ⟨hp, j, hj, hne, rfl⟩ := mem_regionWork.mp htr
  intro x hx
  have hmem : (clusterer (pre.getD r [])).getD j [] ∈
      clusterer (pre.getD r []) := by
    rw [List.getD_eq_getElem _ _ hj]
    exact List.getElem_mem hj
  exact (hv (pre.getD r [])).1 _ hmem x hx

lemma triples_same_region_disjoint {clusterer : List ℕ → List (List ℕ)}
    {pre : List (List ℕ)} (hv : ValidClusterer clusterer)
    {t t' : ℕ × ℕ × List ℕ} (ht : t ∈ clusterTriples clusterer pre)
    (ht' : t' ∈ clusterTriples clusterer pre) (hr : t'.1 = t.1)
    (hc : t'.2.1 ≠ t.2.1) : ∀ x ∈ t.2.2, x ∉ t'.2.2 := by
  obtain ⟨r, hrlen, htr⟩ := mem_clusterTriples.mp ht
  obtain ⟨r', hrlen', htr'⟩ := mem_clusterTriples.mp ht'
  obtain ⟨hp, j, hj, hne, rfl⟩ := mem_regionWork.mp htr
  obtain ⟨hp', j', hj', hne', rfl⟩ := mem_regionWork.mp htr'
  have hrr : r' = r := hr
  subst hrr
  have hjj : j' ≠ j := hc
  have hpw := (hv (pre.getD r' [])).2
  rw [List.pairwise_iff_getElem] at hpw
  intro x hx hx'
  rw [List.getD_eq_getElem _ _ hj] at hx
  rw [List.getD_eq_getElem _ _ hj'] at hx'
  rcases Nat.lt_or_ge j j' with hlt | hge
  · exact hpw j j' hj hj' hlt x hx hx'
  · have hlt' : j' < j := by omega
    exact hpw j' j hj' hj hlt' x hx' hx

/-- C6: for every region, the clusters returned by ClusterStage are subsets
of that region's preimage and pairwise disjoint within the region, and a
point shared by clusters of two regions lies in both regions' preimages,
i.e. in the overlap of the two regions.  The clustering procedure is assumed
to behave as specified (it returns disjoint sub-lists of its input). -/
theorem c6_clusters_disjoint_subsets (cfg : MapperConfig)
    (data : List (List ℚ)) (hv : ValidClusterer cfg.clusterer)
    (t : ℕ × ℕ × List ℕ) (ht : t ∈ triplesOf cfg data) :
    (∀ x ∈ t.2.2, x ∈ (preimagesOf cfg data).getD t.1 []) ∧
    (∀ t' ∈ triplesOf cfg data, t'.1 = t.1 → t'.2.1 ≠ t.2.1 →
      ∀ x ∈ t.2.2, x ∉ t'.2.2) ∧
    (∀ t' ∈ triplesOf cfg data, ∀ x ∈ t.2.2, x ∈ t'.2.2 →
      x ∈ (preimagesOf cfg data).getD t.1 [] ∧
        x ∈ (preimagesOf cfg data).getD t'.1 []) := by
  refine ⟨triple_subset_preimage hv ht, ?_, ?_⟩
  · intro t' ht' hr hc
    exact triples_same_region_disjoint hv ht ht' hr hc
  · intro t' ht' x hx hx'
    exact ⟨triple_subset_preimage hv ht x hx,
      triple_subset_preimage hv ht' x hx'⟩

/-- C6 witness: on the concrete pipeline, the point 0 of region 0's single
cluster lies in region 0's preimage. -/
theorem c6_witness : (0 : ℕ) ∈ (preimagesOf cfg0 data0).getD 0 [] := by
  have hmain := c6_clusters_disjoint_subsets cfg0 data0 cl0_valid
    (0, 0, [0, 1, 2]) (by rw [triples0]; decide)
  exact hmain.1 0 (by decide)

/-- C9: every point index appearing in any node's `node_elements` of the
graph returned by `fit_transform` is smaller than the number of input rows,
so indexing the original data by a node element is always in bounds. -/
theorem c9_node_elements_in_bounds (cfg : MapperConfig)
    (data : List (List ℚ)) (hv : ValidClusterer cfg.clusterer)
    (G : MapperGraph) (h : fitTransform cfg data = .ok G) :
    ∀ nd ∈ G.nodes, ∀ x ∈ nd.node_elements, x < data.length := by
  obtain ⟨hn, -⟩ := fitTransform_ok h
  intro nd hnd x hx
  rw [hn, assembleNodes] at hnd
  obtain ⟨i, hi, rfl⟩ := mem_assembleNodesFrom.mp hnd
  have htmem : (triplesOf cfg data).getD i (0, 0, []) ∈ triplesOf cfg data := by
    rw [List.getD_eq_getElem _ _ hi]
    exact List.getElem_mem hi
  exact mem_preimagesOf_lt (triple_subset_preimage hv htmem x hx)

/-- C9 witness: on the concrete pipeline, the element 0 of the first node is
a valid row index of the four-row input. -/
theorem c9_witness : (0 : ℕ) < data0.length :=
  c9_node_elements_in_bounds cfg0 data0 cl0_valid graph0 fit0
    ⟨0, 0, 0, [0, 1, 2]⟩ (by decide) 0 (by decide)

/-- C2: the produced graph has exactly one node per (region label, cluster
index) pair whose point set is non-empty — the (region, cluster) keys of the
node list are duplicate-free and a key occurs exactly when the region's
preimage is non-empty and the cluster at that index is non-empty — the node
count equals the number of non-empty clusters produced across all regions,
and a region whose preimage is empty contributes no node. -/
theorem c2_one_node_per_nonempty_cluster (cfg : MapperConfig)
    (data : List (List ℚ)) (G : MapperGraph)
    (h : fitTransform cfg data = .ok G) :
    (G.nodes.map (fun nd =>
      (nd.pullback_set_label, nd.local_cluster_label))).Nodup ∧
    (∀ r c : ℕ,
      (∃ nd ∈ G.nodes,
        nd.pullback_set_label = r ∧ nd.local_cluster_label = c) ↔
      (r < (preimagesOf cfg data).length ∧
        (preimagesOf cfg data).getD r [] ≠ [] ∧
        c < (cfg.clusterer ((preimagesOf cfg data).getD r [])).length ∧
        (cfg.clusterer ((preimagesOf cfg data).getD r [])).getD c [] ≠ [])) ∧
    G.nodes.length = nonemptyClusterCount cfg.clusterer (preimagesOf cfg data) ∧
    (∀ r : ℕ, (preimagesOf cfg data).getD r [] = [] →
      ∀ nd ∈ G.nodes, nd.pullback_set_label ≠ r) := by
  obtain ⟨hn, -⟩ := fitTransform_ok h
  refine ⟨?_, ?_, ?_, ?_⟩
  · rw [hn, assembleNodes, assembleNodesFrom_keys]
    have hpair : ((triplesOf cfg data).map (fun t => (t.1, t.2.1))).Pairwise
        (fun p q : ℕ × ℕ => p ≠ q) := by
      rw [List.pairwise_map]
      refine (clusterTriples_pairwise _ _).imp ?_
      intro a b hab heq
      obtain ⟨e1, e2⟩ := (Prod.mk.injEq _ _ _ _).mp heq
      rcases hab with h1 | ⟨h1, h2⟩
      · omega
      · omega
    exact hpair
  · intro r c
    constructor
    · rintro ⟨nd, hnd, hr, hc⟩
      rw [hn, assembleNodes] at hnd
      obtain ⟨i, hi, rfl⟩ := mem_assembleNodesFrom.mp hnd
      have htmem : (triplesOf cfg data).getD i (0, 0, []) ∈
          triplesOf cfg data := by
        rw [List.getD_eq_getElem _ _ hi]
        exact List.getElem_mem hi
      obtain ⟨r₀, hr₀, htr⟩ := mem_clusterTriples.mp htmem
      obtain ⟨hp, j, hj, hne, heq⟩ := mem_regionWork.mp htr
      have hr2 : ((triplesOf cfg data).getD i (0, 0, [])).1 = r := hr
      have hc2 : ((triplesOf cfg data).getD i (0, 0, [])).2.1 = c := hc
      rw [heq] at hr2 hc2
      have hr3 : r₀ = r := hr2
      have hc3 : j = c := hc2
      subst hr3
      subst hc3
      exact ⟨hr₀, hp, hj, hne⟩
    · rintro ⟨hrlen, hp, hc, hne⟩
      have htr : ((r, c,
          (cfg.clusterer ((preimagesOf cfg data).getD r [])).getD c []) :
            ℕ × ℕ × List ℕ) ∈ triplesOf cfg data := by
        unfold triplesOf
        rw [mem_clusterTriples]
        exact ⟨r, hrlen, mem_regionWork.mpr ⟨hp, c, hc, hne, rfl⟩⟩
      obtain ⟨i, hi, hgetEq⟩ := List.mem_iff_getElem.mp htr
      have hgetD : (triplesOf cfg data).getD i (0, 0, []) =
          (r, c, (cfg.clusterer ((preimagesOf cfg data).getD r [])).getD c []) := by
        rw [List.getD_eq_getElem _ _ hi, hgetEq]
      refine ⟨⟨0 + i, ((triplesOf cfg data).getD i (0, 0, [])).1,
        ((triplesOf cfg data).getD i (0, 0, [])).2.1,
        ((triplesOf cfg data).getD i (0, 0, [])).2.2⟩, ?_, ?_, ?_⟩
      · rw [hn, assembleNodes]
        exact mem_assembleNodesFrom.mpr ⟨i, hi, rfl⟩
      · rw [hgetD]
      · rw [hgetD]
  · rw [hn, assembleNodes, assembleNodesFrom_length]
    unfold triplesOf nonemptyClusterCount
    exact clusterTriples_length _ _
  · intro r hpre nd hnd hlabel
    rw [hn, assembleNodes] at hnd
    obtain ⟨i, hi, rfl⟩ := mem_assembleNodesFrom.mp hnd
    have htmem : (triplesOf cfg data).getD i (0, 0, []) ∈
        triplesOf cfg data := by
      rw [List.getD_eq_getElem _ _ hi]
      exact List.getElem_mem hi
    obtain ⟨r₀, hr₀, htr⟩ := mem_clusterTriples.mp htmem
    obtain ⟨hp, j, hj, hne, heq⟩ := mem_regionWork.mp htr
    have hr2 : ((triplesOf cfg data).getD i (0, 0, [])).1 = r := hlabel
    rw [heq] at hr2
    have hr3 : r₀ = r := hr2
    subst hr3
    exact absurd hpre hp

/-- C2 witness: on the concrete pipeline the node count (2) equals the number
of non-empty clusters across the two regions. -/
theorem c2_witness :
    graph0.nodes.length =
      nonemptyClusterCount cfg0.clusterer (preimagesOf cfg0 data0) :=
  (c2_one_node_per_nonempty_cluster cfg0 data0 graph0 fit0).2.2.1

lemma coverIntervals_getElem {n : ℕ} {g minv maxv : ℚ} (h : minv ≠ maxv)
    {k : ℕ} (hk : k < (coverIntervals n g minv maxv).length) :
    (coverIntervals n g minv maxv)[k] =
      (minv + (k : ℚ) * ((maxv - minv) / ((n : ℚ) - ((n : ℚ) - 1) * g) * (1 - g)),
       minv + (k : ℚ) * ((maxv - minv) / ((n : ℚ) - ((n : ℚ) - 1) * g) * (1 - g))
         + (maxv - minv) / ((n : ℚ) - ((n : ℚ) - 1) * g)) := by
  have hk' : k < n := by
    have hk2 := hk
    rwa [coverIntervals_length h] at hk2
  rw [← List.getD_eq_getElem _ (0, 0) hk]
  exact coverIntervals_getD h hk'

lemma coverIntervals_chain (n : ℕ) (g minv maxv : ℚ) (hg0 : 0 ≤ g)
    (hg1 : g < 1) (hmm : minv ≤ maxv) :
    List.Chain' (fun a b : ℚ × ℚ => a.1 ≤ b.1) (coverIntervals n g minv maxv) := by
  by_cases hd : minv = maxv
  · rw [coverIntervals, if_pos hd]
    exact List.chain'_singleton _
  · refine List.Pairwise.chain' ?_
    rw [List.pairwise_iff_getElem]
    intro i j hi hj hij
    have hn : 1 ≤ n := by
      have hj' := hj
      rw [coverIntervals_length hd] at hj'
      omega
    rw [coverIntervals_getElem hd hi, coverIntervals_getElem hd hj]
    dsimp only
    have hD := denom_pos hn hg0 hg1
    have hL : 0 ≤ (maxv - minv) / ((n : ℚ) - ((n : ℚ) - 1) * g) :=
      div_nonneg (by linarith [lt_of_le_of_ne hmm hd]) hD.le
    have hS : 0 ≤ (maxv - minv) / ((n : ℚ) - ((n : ℚ) - 1) * g) * (1 - g) :=
      mul_nonneg hL (by linarith)
    have hcast : (i : ℚ) ≤ (j : ℚ) := by
      exact_mod_cast Nat.le_of_lt hij
    nlinarith [mul_le_mul_of_nonneg_right hcast hS]

lemma coverIntervals_overlap (n : ℕ) (g minv maxv : ℚ) :
    ∀ k, k + 1 < (coverIntervals n g minv maxv).length →
      ((coverIntervals n g minv maxv).getD k (0, 0)).2 -
          ((coverIntervals n g minv maxv).getD (k + 1) (0, 0)).1 =
        g * (((coverIntervals n g minv maxv).getD k (0, 0)).2 -
          ((coverIntervals n g minv maxv).getD k (0, 0)).1) := by
  intro k hk
  by_cases hd : minv = maxv
  · rw [coverIntervals, if_pos hd] at hk
    simp at hk
  · have hk1 : k + 1 < n := by
      rwa [coverIntervals_length hd] at hk
    have hk0 : k < n := by omega
    rw [coverIntervals_getD hd hk0, coverIntervals_getD hd hk1]
    dsimp only
    push_cast
    ring

lemma coverIntervals_covers (n : ℕ) (g minv maxv : ℚ) (hn : 1 ≤ n)
    (hg0 : 0 ≤ g) (hg1 : g < 1) (hmm : minv ≤ maxv) :
    ∀ x : ℚ, minv ≤ x → x ≤ maxv →
      ∃ itv ∈ coverIntervals n g minv maxv, itv.1 ≤ x ∧ x ≤ itv.2 := by
  intro x hx1 hx2
  by_cases hd : minv = maxv
  · refine ⟨(minv, maxv), ?_, hx1, hx2⟩
    rw [coverIntervals, if_pos hd]
    exact List.mem_singleton_self _
  · have hlt : minv < maxv := lt_of_le_of_ne hmm hd
    have hD := denom_pos hn hg0 hg1
    have hDne : ((n : ℚ) - ((n : ℚ) - 1) * g) ≠ 0 := ne_of_gt hD
    have hL : 0 < (maxv - minv) / ((n : ℚ) - ((n : ℚ) - 1) * g) :=
      div_pos (by linarith) hD
    have hS0 : 0 ≤ (maxv - minv) / ((n : ℚ) - ((n : ℚ) - 1) * g) * (1 - g) :=
      mul_nonneg hL.le (by linarith)
    have hSL : (maxv - minv) / ((n : ℚ) - ((n : ℚ) - 1) * g) * (1 - g) ≤
        (maxv - minv) / ((n : ℚ) - ((n : ℚ) - 1) * g) := by nlinarith
    have hcast : ((n - 1 : ℕ) : ℚ) = (n : ℚ) - 1 := by
      rw [Nat.cast_sub hn, Nat.cast_one]
    have hid : minv + ((n - 1 : ℕ) : ℚ) *
        ((maxv - minv) / ((n : ℚ) - ((n : ℚ) - 1) * g) * (1 - g)) +
        (maxv - minv) / ((n : ℚ) - ((n : ℚ) - 1) * g) = maxv := by
      rw [hcast]
      field_simp
      ring
    have hupper : x ≤ minv + ((n - 1 : ℕ) : ℚ) *
        ((maxv - minv) / ((n : ℚ) - ((n : ℚ) - 1) * g) * (1 - g)) +
        (maxv - minv) / ((n : ℚ) - ((n : ℚ) - 1) * g) := by
      rw [hid]
      exact hx2
    obtain ⟨k, hk, ha, hb⟩ := interval_chain_cover minv
      ((maxv - minv) / ((n : ℚ) - ((n : ℚ) - 1) * g))
      ((maxv - minv) / ((n : ℚ) - ((n : ℚ) - 1) * g) * (1 - g))
      x hS0 hSL (n - 1) hx1 hupper
    have hkn : k < n := by omega
    have hklen : k < (coverIntervals n g minv maxv).length := by
      rw [coverIntervals_length hd]
      exact hkn
    refine ⟨(coverIntervals n g minv maxv).getD k (0, 0), ?_, ?_, ?_⟩
    · rw [List.getD_eq_getElem _ _ hklen]
      exact List.getElem_mem hklen
    · rw [coverIntervals_getD hd hkn]
      exact ha
    · rw [coverIntervals_getD hd hkn]
      exact hb

/-- C3: for every valid cover configuration and every non-empty input, the
cover built from the observed filter-value minimum and maximum is an ordered
sequence of regions (left endpoints non-decreasing); consecutive regions
overlap by the requested fraction of the region length; the union of the
regions covers the full observed range inclusive of both endpoints; and
every point index lies in at least one region's preimage. -/
theorem c3_cover_covers_range (cfg : MapperConfig) (data : List (List ℚ))
    (hn : 1 ≤ cfg.n_intervals) (hg0 : 0 ≤ cfg.overlap_frac)
    (hg1 : cfg.overlap_frac < 1) (hne : data ≠ []) :
    List.Chain' (fun a b : ℚ × ℚ => a.1 ≤ b.1) (coverOf cfg data) ∧
    (∀ k, k + 1 < (coverOf cfg data).length →
      ((coverOf cfg data).getD k (0, 0)).2 -
          ((coverOf cfg data).getD (k + 1) (0, 0)).1 =
        cfg.overlap_frac * (((coverOf cfg data).getD k (0, 0)).2 -
          ((coverOf cfg data).getD k (0, 0)).1)) ∧
    (∀ x : ℚ, minOf (filterValues cfg data) ≤ x →
      x ≤ maxOf (filterValues cfg data) →
      ∃ itv ∈ coverOf cfg data, itv.1 ≤ x ∧ x ≤ itv.2) ∧
    (∀ j, j < data.length →
      ∃ r, r < (preimagesOf cfg data).length ∧
        j ∈ (preimagesOf cfg data).getD r []) := by
  have hfne : filterValues cfg data ≠ [] := by
    unfold filterValues
    intro hcon
    exact hne (List.map_eq_nil_iff.mp hcon)
  have hmm : minOf (filterValues cfg data) ≤ maxOf (filterValues cfg data) :=
    minOf_le_maxOf hfne
  refine ⟨?_, ?_, ?_, ?_⟩
  · unfold coverOf
    exact coverIntervals_chain _ _ _ _ hg0 hg1 hmm
  · unfold coverOf
    exact coverIntervals_overlap _ _ _ _
  · unfold coverOf
    exact coverIntervals_covers _ _ _ _ hn hg0 hg1 hmm
  · intro j hj
    have hjf : j < (filterValues cfg data).length := by
      rw [filterValues, List.length_map]
      exact hj
    have hmem : (filterValues cfg data).getD j 0 ∈ filterValues cfg data := by
      rw [List.getD_eq_getElem _ _ hjf]
      exact List.getElem_mem hjf
    obtain ⟨itv, hitv, hl, hr⟩ :=
      coverIntervals_covers cfg.n_intervals cfg.overlap_frac
        (minOf (filterValues cfg data)) (maxOf (filterValues cfg data))
        hn hg0 hg1 hmm ((filterValues cfg data).getD j 0)
        (minOf_le hmem) (le_maxOf hmem)
    have hitv' : itv ∈ coverOf cfg data := hitv
    obtain ⟨r, hrlen, hreq⟩ := List.mem_iff_getElem.mp hitv'
    refine ⟨r, ?_, ?_⟩
    · rw [preimagesOf, List.length_map]
      exact hrlen
    · rw [preimagesOf_getD hrlen, mem_preimageOf]
      refine ⟨hjf, ?_, ?_⟩
      · rw [List.getD_eq_getElem _ _ hrlen, hreq]
        exact hl
      · rw [List.getD_eq_getElem _ _ hrlen, hreq]
        exact hr

/-- C3 witness: on the concrete pipeline (2 regions, overlap fraction 1/2,
four points) the point index 3 lies in some region's preimage. -/
theorem c3_witness :
    ∃ r, r < (preimagesOf cfg0 data0).length ∧
      3 ∈ (preimagesOf cfg0 data0).getD r [] := by
  refine (c3_cover_covers_range cfg0 data0 ?_ ?_ ?_ ?_).2.2.2 3 ?_
  · decide
  · norm_num [cfg0]
  · norm_num [cfg0]
  · decide
  · decide

end Mapper
